import Mathlib

/-!
Shallow embedding of the windowing/batching pipeline of `utils.py`
(`image_pairs`, `convert_large_array`, and `class DataManager`).

Conventions used throughout:

* an image frame is an opaque value of a type `α`; a pose row is an opaque
  value of a type `P` carrying a subtraction;
* a numpy array of frames (resp. poses) is a `List α` (resp. `List P`);
  numpy integer indexing `a[i]` is `l[i]?`, where `none` models an
  `IndexError`;
* every channel write in the source is aligned to a whole `C`-channel
  block (`[C*idx, C*(idx+1))`, or `0:3` / `3:6` in `image_pairs`), so a
  stacked example is represented as a list of cells, one per channel
  block; a cell is an `Option α`: `some f` when the block holds frame
  `f`, `none` when the block was never written (the `np.empty` garbage of
  `image_pairs`, or the initial `np.zeros` fill of the reusable buffer);
* a generator run is represented by the list of yielded items together
  with an error flag, `true` when an exception (`IndexError`,
  `AssertionError`, a broadcasting `ValueError`, or the `range` zero-step
  `ValueError`) escapes the generator;
* the model assumes `seq_len ≥ 1` for `DataManager` (for `seq_len = 0`
  python computes `add_frames = -1`, which the `Nat` subtraction in the
  model does not represent; no theorem below instantiates `seq_len = 0`).
-/

namespace DeepVO

variable {α β γ P S D F : Type}

/-- Python slice `l[a:-b]` where `b` is a non-negative stop offset;
`l[a:-0]` means `l[a:0] = []`. -/
def pySliceNeg (l : List γ) (a b : Nat) : List γ :=
  if b = 0 then [] else (l.drop a).take (l.length - a - b)

/-- Python `range(0, stop, step)` for `step ≥ 1` (the `step = 0` case
raises `ValueError` and is handled at the call sites). -/
def pyRange (stop step : Nat) : List Nat :=
  (List.range ((stop + step - 1) / step)).map (· * step)

/-- numpy fancy indexing `base[l]`: look every index up, failing (like
`IndexError`) as soon as any lookup fails. -/
def seqMap (f : γ → Option β) : List γ → Option (List β)
  | [] => some []
  | i :: t =>
    match f i, seqMap f t with
    | some b, some r => some (b :: r)
    | _, _ => none

/-! ### `image_pairs` -/

/-- One yielded element of `image_pairs`: slot `k` stores the two
3-channel halves `ret[k,...,0:3]` and `ret[k,...,3:6]` as two cells. -/
abbrev Chunk (α : Type) := List (Option α × Option α)

/-- Contents of the `uint8` array `stacked_indices` built by
`image_pairs`: position `2k` holds `batch_indices[k] = idx + k` and
position `2k+1` holds `idx + k + 1`, each truncated to 8 bits by the
store into the `uint8` array (`np.empty(..., dtype=np.uint8)`). -/
def stackedIndices (Lm1 idx : Nat) : List Nat :=
  (List.range (2 * Lm1)).map fun j => (idx + j / 2 + j % 2) % 256

/-- The two strided assignments `ret[indices, ..., 0:3] =
stacked[indices * 2]` and `ret[indices, ..., 3:6] = stacked[indices * 2 + 1]`,
performed one slot at a time. -/
def fillPairsAux (stacked : List α) : List Nat → Chunk α → Chunk α
  | [], ch => ch
  | k :: rest, ch =>
    fillPairsAux stacked rest (ch.set k (stacked[2 * k]?, stacked[2 * k + 1]?))

/-- The body of one `image_pairs` loop iteration up to (excluding) the
asserts: gather `stacked = image_sequence[stacked_indices, ...]`,
allocate `ret = np.empty((sequence_length, h, w, 2c))` (all cells
uninitialised) and fill slots `0 .. sequence_length - 2`. -/
def buildChunk (seq : List α) (L idx : Nat) : Option (Chunk α) :=
  match seqMap (fun i => seq[i]?) (stackedIndices (L - 1) idx) with
  | none => none
  | some stacked =>
    some (fillPairsAux stacked (List.range (L - 1))
      (List.replicate L ((none, none) : Option α × Option α)))

/-- The two asserts of `image_pairs`:
`assert (ret[0, ..., :3] == image_sequence[0]).all()` and
`assert (ret[0, ..., 3:] == image_sequence[1]).all()` — they compare with
frames `0` and `1` of the input, not with frames `idx` and `idx + 1`.
An uninitialised cell is taken to differ from every real frame, and a
missing frame lookup is an `IndexError`. -/
def chunkChecks [DecidableEq α] (seq : List α) (ch : Chunk α) : Bool :=
  match ch[0]?, seq[0]?, seq[1]? with
  | some c, some f0, some f1 => decide (c.1 = some f0) && decide (c.2 = some f1)
  | _, _, _ => false

/-- The `image_pairs` loop over the given list of chunk starts. -/
def pairsGo [DecidableEq α] (seq : List α) (L : Nat) :
    List Nat → List (Chunk α) × Bool
  | [] => ([], false)
  | s :: rest =>
    match buildChunk seq L s with
    | none => ([], true)
    | some ch =>
      if chunkChecks seq ch then
        let r := pairsGo seq L rest
        (ch :: r.1, r.2)
      else ([], true)

/-- Full run of the generator `image_pairs(image_sequence,
sequence_length)`: the chunks yielded before any escaping exception,
plus an error flag. -/
def imagePairsRun [DecidableEq α] (seq : List α) (L : Nat) :
    List (Chunk α) × Bool :=
  if L = 0 then ([], true) else pairsGo seq L (pyRange seq.length L)

/-! ### `DataManager` -/

/-- State of a `DataManager`; the field order follows `__init__`.  The
stacked output buffer `image_stack_batch` stores one cell per `C`-channel
block: `none` is the initial `np.zeros` fill, `some f` means the block
holds frame `f`. -/
structure DM (α P : Type) where
  poses : List P
  images : List α
  seq_len : Nat
  batch_size : Nat
  image_stack_batch : List (List (Option α))
deriving DecidableEq

/-- `self.add_frames = self.seq_len - 1`. -/
def DM.add_frames (dm : DM α P) : Nat := dm.seq_len - 1

/-- Length of `self.image_indices = np.arange(batch_size + add_frames)`. -/
def DM.winLen (dm : DM α P) : Nat := dm.batch_size + dm.add_frames

/-- `self.N = self.images.shape[0]` (`self.images` is never reassigned,
so the stored count always equals the current length). -/
def DM.N (dm : DM α P) : Nat := dm.images.length

/-- `DataManager.__init__` with the two `np.load`ed arrays passed in
directly; it stores the arrays and parameters without any validation and
allocates the zero-filled output buffer of `batch_size` examples times
`seq_len` channel blocks exactly once. -/
def mkDataManager (imgs : List α) (poses : List P) (bs sl : Nat) : DM α P :=
  ⟨poses, imgs, sl, bs, List.replicate bs (List.replicate sl none)⟩

/-- numpy subtraction of two arrays of pose rows with broadcasting on the
first axis: equal lengths subtract elementwise, a length-1 operand
broadcasts against the other (including against length 0), anything else
raises a `ValueError`. -/
def npSub [Sub P] (xs ys : List P) : Option (List P) :=
  if xs.length = ys.length then some (List.zipWith (fun x y => x - y) xs ys)
  else
    match xs, ys with
    | [x], ys => some (ys.map (fun y => x - y))
    | xs, [y] => some (xs.map (fun x => x - y))
    | _, _ => none

/-- `self.image_stack_batch[..., begin:end] = frames`: write one channel
block of every example row in place; the first-axis shapes must agree. -/
def writeCol (buf : List (List (Option α))) (blk : Nat) (frames : List α) :
    Option (List (List (Option α))) :=
  if buf.length = frames.length then
    some (List.zipWith (fun row f => row.set blk (some f)) buf frames)
  else none

/-- The index slice used for channel block `blk`:
`image_indices_global[idx:]` for the last block and
`image_indices_global[idx:-(self.add_frames - idx)]` otherwise. -/
def blockSlice (L af sl s blk : Nat) : List Nat :=
  let g := (List.range L).map (· + s)
  if blk = sl - 1 then g.drop blk else pySliceNeg g blk (af - blk)

/-- The buffer-filling loop `for idx in range(0, self.seq_len)` of
`DataManager.batches`. -/
def fillBlocks (imgs : List α) (s L af sl : Nat) :
    List Nat → List (List (Option α)) → Option (List (List (Option α)))
  | [], buf => some buf
  | blk :: rest, buf =>
    (seqMap (fun i => imgs[i]?) (blockSlice L af sl s blk)).bind fun frames =>
      (writeCol buf blk frames).bind fun buf1 =>
        fillBlocks imgs s L af sl rest buf1

/-- One iteration of `DataManager.batches` at offset `s`, after the break
test: the pose deltas are computed first, then the reusable buffer is
overwritten block by block, then `(buffer, deltas)` is yielded.  `none`
models an escaping numpy exception. -/
def dataStep [Sub P] (dm : DM α P) (s : Nat) :
    Option (DM α P × (List (List (Option α)) × List P)) :=
  let g := (List.range dm.winLen).map (· + s)
  (seqMap (fun i => dm.poses[i]?) (g.drop dm.add_frames)).bind fun a =>
    (seqMap (fun i => dm.poses[i]?) (pySliceNeg g 0 dm.add_frames)).bind fun b =>
      (npSub a b).bind fun diff =>
        (fillBlocks dm.images s dm.winLen dm.add_frames dm.seq_len
            (List.range dm.seq_len) dm.image_stack_batch).bind fun buf =>
          some ({ dm with image_stack_batch := buf }, (buf, diff))

/-- Outcome of a full pass over `DataManager.batches()`. -/
structure RunResult (α P : Type) where
  yields : List (List (List (Option α)) × List P)
  err : Bool
  final : DM α P
deriving DecidableEq

/-- The loop `for batch_idx in range(0, self.N, len(self.image_indices))`
of `DataManager.batches`, including the break when
`batch_idx + len(self.image_indices) > self.N`. -/
def runFrom [Sub P] (dm : DM α P) : List Nat → RunResult α P
  | [] => ⟨[], false, dm⟩
  | s :: rest =>
    if dm.N < s + dm.winLen then ⟨[], false, dm⟩
    else
      match dataStep dm s with
      | none => ⟨[], true, dm⟩
      | some (dm1, y) =>
        let r := runFrom dm1 rest
        ⟨y :: r.yields, r.err, r.final⟩

/-- Full pass of `DataManager.batches()`; a `range` step of `0` is an
immediate `ValueError`. -/
def runBatches [Sub P] (dm : DM α P) : RunResult α P :=
  if dm.winLen = 0 then ⟨[], true, dm⟩
  else runFrom dm (pyRange dm.N dm.winLen)

/-! ### `convert_large_array` -/

/-- An on-disk `.npy` array: the header-encoded shape plus the element
data; the element dtype is the Lean type of the elements. -/
structure NpyArr (β : Type) where
  shape : List Nat
  data : List β
deriving DecidableEq

/-- `convert_large_array(file_in, file_out, dtype, factor)`: create the
destination memmap with the source's shape, run `np.copyto(dest, source,
casting='unsafe')` (the elementwise unsafe cast, which accepts any
numeric dtype pair without raising), then, only when `factor != 1.0`,
run `np.multiply(dest, factor, out=dest)`.  The in-place multiply is
governed by numpy's default `casting='same_kind'` rule on the ufunc
result: the flag `sk` abstracts the dtype-level test
`np.can_cast(np.result_type(dtype, type(factor)), dtype, 'same_kind')`
— `true` for floating destination dtypes, `false` for an integer
destination dtype with a Python-float factor — and when it fails the
call raises `UFuncTypeError` (modelled as `none`) with no data written.
The scalar semantics of the dtypes are abstracted into `cast` and
`mul`. -/
def convert_large_array [DecidableEq F] [One F]
    (src : NpyArr S) (cast : S → D) (sk : Bool) (mul : D → F → D)
    (factor : F) : Option (NpyArr D) :=
  let dest : NpyArr D := ⟨src.shape, src.data.map cast⟩
  if factor = 1 then some dest
  else if sk then some ⟨dest.shape, dest.data.map (fun d => mul d factor)⟩
  else none


/-! ### Library-style helper lemmas about the embedding primitives -/

theorem seqMap_length {f : γ → Option β} :
    ∀ {l : List γ} {r : List β}, seqMap f l = some r → r.length = l.length := by
  intro l
  induction l with
  | nil =>
    intro r h
    simp only [seqMap] at h
    cases h
    rfl
  | cons i t ih =>
    intro r h
    simp only [seqMap] at h
    cases hfi : f i with
    | none => rw [hfi] at h; cases h
    | some b =>
      cases hst : seqMap f t with
      | none => rw [hfi, hst] at h; cases h
      | some r0 =>
        rw [hfi, hst] at h
        cases h
        simp [ih hst]

theorem seqMap_getElem? {f : γ → Option β} :
    ∀ {l : List γ} {r : List β}, seqMap f l = some r →
      ∀ j : Nat, r[j]? = l[j]?.bind f := by
  intro l
  induction l with
  | nil =>
    intro r h j
    simp only [seqMap] at h
    cases h
    simp
  | cons i t ih =>
    intro r h j
    simp only [seqMap] at h
    cases hfi : f i with
    | none => rw [hfi] at h; cases h
    | some b =>
      cases hst : seqMap f t with
      | none => rw [hfi, hst] at h; cases h
      | some r0 =>
        rw [hfi, hst] at h
        cases h
        cases j with
        | zero => simp [hfi]
        | succ j => simpa using ih hst j

theorem seqMap_total {f : γ → Option β} :
    ∀ {l : List γ}, (∀ i ∈ l, (f i).isSome) → ∃ r, seqMap f l = some r := by
  intro l
  induction l with
  | nil => intro _; exact ⟨[], rfl⟩
  | cons i t ih =>
    intro h
    obtain ⟨b, hb⟩ := Option.isSome_iff_exists.mp (h i (List.mem_cons_self i t))
    obtain ⟨r, hr⟩ := ih fun j hj => h j (List.mem_cons_of_mem i hj)
    exact ⟨b :: r, by simp only [seqMap]; rw [hb, hr]⟩

theorem pySliceNeg_getElem? (l : List γ) (a b j : Nat) (hb : b ≠ 0) :
    (pySliceNeg l a b)[j]? = if j < l.length - a - b then l[a + j]? else none := by
  simp only [pySliceNeg, if_neg hb]
  rw [List.getElem?_take]
  by_cases hj : j < l.length - a - b
  · simp [hj, List.getElem?_drop]
  · simp [hj]

theorem pySliceNeg_length (l : List γ) (a b : Nat) (hb : b ≠ 0) :
    (pySliceNeg l a b).length = min (l.length - a - b) (l.length - a) := by
  simp [pySliceNeg, if_neg hb]

theorem mem_pySliceNeg {l : List γ} {a b : Nat} {i : γ} (h : i ∈ pySliceNeg l a b) :
    i ∈ l := by
  simp only [pySliceNeg] at h
  split at h
  · cases h
  · exact List.mem_of_mem_drop (List.mem_of_mem_take h)

theorem pyRange_getElem?_some {stop step k s : Nat}
    (h : (pyRange stop step)[k]? = some s) : s = k * step := by
  unfold pyRange at h
  rw [List.getElem?_map] at h
  by_cases hk : k < (stop + step - 1) / step
  · rw [List.getElem?_range hk] at h
    cases h
    rfl
  · rw [List.getElem?_eq_none (by simpa using Nat.le_of_not_lt hk)] at h
    cases h

theorem blockSlice_getElem? (L af sl s blk e : Nat) (haf : af = sl - 1) (hblk : blk < sl)
    (he : af + e < L) :
    (blockSlice L af sl s blk)[e]? = some (blk + e + s) := by
  have hblkaf : blk ≤ af := by omega
  unfold blockSlice
  by_cases hb : blk = sl - 1
  · rw [if_pos hb]
    have hbe : blk + e < L := by omega
    rw [List.getElem?_drop, List.getElem?_map, List.getElem?_range hbe]
    rfl
  · rw [if_neg hb]
    have hlt : blk < af := by omega
    rw [pySliceNeg_getElem? _ _ _ _ (by omega)]
    have hlen : (((List.range L).map (· + s)).length) = L := by simp
    rw [hlen, if_pos (by omega)]
    have hbe : blk + e < L := by omega
    rw [List.getElem?_map, List.getElem?_range hbe]
    rfl

theorem blockSlice_length (L af sl s blk : Nat) (haf : af = sl - 1) (hblk : blk < sl)
    (hL : af ≤ L) :
    (blockSlice L af sl s blk).length = L - af := by
  have hblkaf : blk ≤ af := by omega
  unfold blockSlice
  by_cases hb : blk = sl - 1
  · rw [if_pos hb]
    simp only [List.length_drop, List.length_map, List.length_range]
    omega
  · rw [if_neg hb]
    rw [pySliceNeg_length _ _ _ (by omega)]
    simp only [List.length_map, List.length_range]
    omega

theorem mem_blockSlice {L af sl s blk : Nat} {i : Nat}
    (h : i ∈ blockSlice L af sl s blk) : i < L + s := by
  have hmem : i ∈ (List.range L).map (· + s) := by
    unfold blockSlice at h
    split at h
    · exact List.mem_of_mem_drop h
    · exact mem_pySliceNeg h
  obtain ⟨j, hj, rfl⟩ := List.mem_map.mp hmem
  have := List.mem_range.mp hj
  omega

theorem writeCol_inv {buf buf1 : List (List (Option α))} {blk : Nat} {frames : List α}
    (h : writeCol buf blk frames = some buf1) :
    buf.length = frames.length ∧
      buf1 = List.zipWith (fun row f => row.set blk (some f)) buf frames := by
  unfold writeCol at h
  split at h
  · cases h
    exact ⟨by assumption, rfl⟩
  · cases h

theorem writeCol_getElem? {buf buf1 : List (List (Option α))} {blk : Nat} {frames : List α}
    (h : writeCol buf blk frames = some buf1) (e : Nat) :
    buf1[e]? = buf[e]?.bind fun row => frames[e]?.map fun f => row.set blk (some f) := by
  obtain ⟨hl, rfl⟩ := writeCol_inv h
  rw [List.getElem?_zipWith']
  cases buf[e]? <;> cases frames[e]? <;> simp

theorem writeCol_total {buf : List (List (Option α))} {blk : Nat} {frames : List α}
    (h : buf.length = frames.length) :
    writeCol buf blk frames =
      some (List.zipWith (fun row f => row.set blk (some f)) buf frames) := by
  unfold writeCol
  rw [if_pos h]


theorem getElem?_some_of_lt {l : List γ} {i : Nat} (h : i < l.length) :
    ∃ x, l[i]? = some x :=
  ⟨l[i], List.getElem?_eq_getElem h⟩

theorem lt_of_getElem?_some {l : List γ} {i : Nat} {x : γ} (h : l[i]? = some x) :
    i < l.length :=
  (List.getElem?_eq_some.mp h).1

theorem writeCol_rowLen {buf bufm : List (List (Option α))} {blk : Nat} {frames : List α}
    (hwc : writeCol buf blk frames = some bufm) (e : Nat) :
    bufm[e]?.map List.length = buf[e]?.map List.length := by
  rw [writeCol_getElem? hwc e]
  obtain ⟨hl, _⟩ := writeCol_inv hwc
  cases hb : buf[e]? with
  | none => simp
  | some row =>
    have he : e < frames.length := hl ▸ lt_of_getElem?_some hb
    obtain ⟨f, hf⟩ := getElem?_some_of_lt he
    simp [hf, List.length_set]

theorem fillBlocks_dims {imgs : List α} {s L af sl : Nat} :
    ∀ {blks : List Nat} {buf buf1 : List (List (Option α))},
      fillBlocks imgs s L af sl blks buf = some buf1 →
      buf1.length = buf.length ∧
      ∀ e : Nat, buf1[e]?.map List.length = buf[e]?.map List.length := by
  intro blks
  induction blks with
  | nil =>
    intro buf buf1 h
    simp only [fillBlocks] at h
    cases h
    exact ⟨rfl, fun _ => rfl⟩
  | cons blk rest ih =>
    intro buf buf1 h
    simp only [fillBlocks, Option.bind_eq_some] at h
    obtain ⟨frames, hsm, bufm, hwc, h⟩ := h
    obtain ⟨h1, h2⟩ := ih h
    obtain ⟨hl, hzip⟩ := writeCol_inv hwc
    refine ⟨?_, ?_⟩
    · rw [h1, hzip]
      simp [hl]
    · intro e
      rw [h2 e, writeCol_rowLen hwc e]

theorem fillBlocks_cells {imgs : List α} {s bs af sl : Nat} :
    ∀ {blks : List Nat} {buf buf1 : List (List (Option α))},
      fillBlocks imgs s (bs + af) af sl blks buf = some buf1 →
      (∀ b ∈ blks, b < sl) → af = sl - 1 → buf.length = bs →
      (∀ (e : Nat) (row : List (Option α)), buf[e]? = some row → sl ≤ row.length) →
      (∀ e blk : Nat, e < bs → blk ∈ blks →
        ∃ f, imgs[s + blk + e]? = some f ∧
          buf1[e]?.bind (fun row => row[blk]?) = some (some f)) ∧
      (∀ e blk : Nat, blk ∉ blks →
        buf1[e]?.bind (fun row => row[blk]?) = buf[e]?.bind (fun row => row[blk]?)) := by
  intro blks
  induction blks with
  | nil =>
    intro buf buf1 h _ _ _ _
    simp only [fillBlocks] at h
    cases h
    exact ⟨fun e blk _ hblk => absurd hblk (List.not_mem_nil blk),
      fun _ _ _ => rfl⟩
  | cons blk rest ih =>
    intro buf buf1 h hblks haf hlen hrows
    have hblk : blk < sl := hblks blk (List.mem_cons_self blk rest)
    simp only [fillBlocks, Option.bind_eq_some] at h
    obtain ⟨frames, hsm, bufm, hwc, h⟩ := h
    have hslice : (blockSlice (bs + af) af sl s blk).length = bs := by
      rw [blockSlice_length _ _ _ _ _ haf hblk (by omega)]
      omega
    have hfl : frames.length = bs := by
      rw [seqMap_length hsm, hslice]
    have hmlen : bufm.length = bs := by
      obtain ⟨hl, hzip⟩ := writeCol_inv hwc
      rw [hzip, List.length_zipWith]
      omega
    have hmrows : ∀ (e : Nat) (row : List (Option α)),
        bufm[e]? = some row → sl ≤ row.length := by
      intro e row hr
      have hlene := writeCol_rowLen hwc e
      rw [hr] at hlene
      cases hb : buf[e]? with
      | none => rw [hb] at hlene; cases hlene
      | some row0 =>
        rw [hb] at hlene
        have hlenr : row.length = row0.length := by simpa using hlene
        rw [hlenr]
        exact hrows e row0 hb
    have hcell : ∀ e : Nat, e < bs →
        ∃ f, imgs[s + blk + e]? = some f ∧
          bufm[e]?.bind (fun row => row[blk]?) = some (some f) := by
      intro e he
      obtain ⟨row, hrow⟩ := getElem?_some_of_lt (l := buf) (by omega : e < buf.length)
      obtain ⟨f, hf⟩ := getElem?_some_of_lt (l := frames) (by omega : e < frames.length)
      have himg : imgs[s + blk + e]? = some f := by
        have h1 := seqMap_getElem? hsm e
        rw [hf, blockSlice_getElem? (bs + af) af sl s blk e haf hblk (by omega)] at h1
        have h2 : imgs[blk + e + s]? = some f := by simpa using h1.symm
        simpa [show blk + e + s = s + blk + e by omega] using h2
      refine ⟨f, himg, ?_⟩
      rw [writeCol_getElem? hwc e, hrow, hf]
      have hbl : blk < row.length := by
        have := hrows e row hrow
        omega
      simp [List.getElem?_set, hbl]
    have hkeep : ∀ e blk1 : Nat, blk1 ≠ blk →
        bufm[e]?.bind (fun row => row[blk1]?) =
          buf[e]?.bind (fun row => row[blk1]?) := by
      intro e blk1 hne
      rw [writeCol_getElem? hwc e]
      cases hb : buf[e]? with
      | none => simp
      | some row =>
        obtain ⟨f, hf⟩ := getElem?_some_of_lt
          (l := frames) (by rw [hfl]; exact hlen ▸ lt_of_getElem?_some hb)
        rw [hf]
        simp [List.getElem?_set, Ne.symm hne]
    obtain ⟨ih1, ih2⟩ := ih h (fun b hb => hblks b (List.mem_cons_of_mem blk hb))
      haf hmlen hmrows
    refine ⟨?_, ?_⟩
    · intro e blk1 he hmem
      rcases List.mem_cons.mp hmem with heq | hmem1
      · subst heq
        by_cases hrest : blk1 ∈ rest
        · exact ih1 e blk1 he hrest
        · obtain ⟨f, hff, hc⟩ := hcell e he
          exact ⟨f, hff, by rw [ih2 e blk1 hrest, hc]⟩
      · exact ih1 e blk1 he hmem1
    · intro e blk1 hnot
      have hne : blk1 ≠ blk := fun hh => hnot (hh ▸ List.mem_cons_self blk rest)
      have hnr : blk1 ∉ rest := fun hh => hnot (List.mem_cons_of_mem blk hh)
      rw [ih2 e blk1 hnr, hkeep e blk1 hne]

theorem fillBlocks_total {imgs : List α} {s bs af sl : Nat}
    (hbnd : s + (bs + af) ≤ imgs.length) (haf : af = sl - 1) :
    ∀ {blks : List Nat} {buf : List (List (Option α))},
      (∀ b ∈ blks, b < sl) → buf.length = bs →
      ∃ buf1, fillBlocks imgs s (bs + af) af sl blks buf = some buf1 := by
  intro blks
  induction blks with
  | nil =>
    intro buf _ _
    exact ⟨buf, rfl⟩
  | cons blk rest ih =>
    intro buf hblks hlen
    have hblk : blk < sl := hblks blk (List.mem_cons_self blk rest)
    obtain ⟨frames, hsm⟩ := seqMap_total
      (f := fun i => imgs[i]?) (l := blockSlice (bs + af) af sl s blk)
      (by
        intro i hi
        have := mem_blockSlice hi
        have hlt : i < imgs.length := by omega
        simp [List.getElem?_eq_getElem hlt])
    have hfl : frames.length = bs := by
      rw [seqMap_length hsm,
        blockSlice_length _ _ _ _ _ haf hblk (by omega)]
      omega
    have hwc := @writeCol_total _ buf blk frames (by omega)
    have hlen2 : (List.zipWith (fun row f => row.set blk (some f))
        buf frames).length = bs := by
      simp [hfl, hlen]
    obtain ⟨buf1, hrec⟩ :=
      ih (fun b hb => hblks b (List.mem_cons_of_mem blk hb)) hlen2
    refine ⟨buf1, ?_⟩
    simp only [fillBlocks]
    rw [hsm, Option.some_bind, hwc, Option.some_bind]
    exact hrec


theorem dataStep_inv [Sub P] {dm : DM α P} {s : Nat}
    {out : DM α P × (List (List (Option α)) × List P)}
    (h : dataStep dm s = some out) :
    ∃ a b diff buf,
      seqMap (fun i => dm.poses[i]?)
        (((List.range dm.winLen).map (· + s)).drop dm.add_frames) = some a ∧
      seqMap (fun i => dm.poses[i]?)
        (pySliceNeg ((List.range dm.winLen).map (· + s)) 0 dm.add_frames) = some b ∧
      npSub a b = some diff ∧
      fillBlocks dm.images s dm.winLen dm.add_frames dm.seq_len
        (List.range dm.seq_len) dm.image_stack_batch = some buf ∧
      out = ({ dm with image_stack_batch := buf }, (buf, diff)) := by
  simp only [dataStep, Option.bind_eq_some] at h
  obtain ⟨a, ha, b, hb, diff, hdiff, buf, hbuf, hout⟩ := h
  exact ⟨a, b, diff, buf, ha, hb, hdiff, hbuf, (Option.some.inj hout).symm⟩

theorem dataStep_total [Sub P] {dm : DM α P} {s : Nat}
    (hwf1 : dm.image_stack_batch.length = dm.batch_size)
    (hsl : 2 ≤ dm.seq_len)
    (hpos : dm.images.length ≤ dm.poses.length)
    (hs : s + dm.winLen ≤ dm.images.length) :
    ∃ out, dataStep dm s = some out := by
  have haf : dm.add_frames = dm.seq_len - 1 := rfl
  have hL : dm.winLen = dm.batch_size + dm.add_frames := rfl
  have hmem : ∀ i ∈ (List.range dm.winLen).map (· + s), i < s + dm.winLen := by
    intro i hi
    obtain ⟨j, hj, rfl⟩ := List.mem_map.mp hi
    have := List.mem_range.mp hj
    omega
  obtain ⟨a, ha⟩ := seqMap_total (f := fun i => dm.poses[i]?)
    (l := ((List.range dm.winLen).map (· + s)).drop dm.add_frames)
    (by
      intro i hi
      have h1 := hmem i (List.mem_of_mem_drop hi)
      have h2 : i < dm.poses.length := by omega
      simp [List.getElem?_eq_getElem h2])
  obtain ⟨b, hb⟩ := seqMap_total (f := fun i => dm.poses[i]?)
    (l := pySliceNeg ((List.range dm.winLen).map (· + s)) 0 dm.add_frames)
    (by
      intro i hi
      have h1 := hmem i (mem_pySliceNeg hi)
      have h2 : i < dm.poses.length := by omega
      simp [List.getElem?_eq_getElem h2])
  have hal : a.length = dm.batch_size := by
    rw [seqMap_length ha]
    simp only [List.length_drop, List.length_map, List.length_range]
    omega
  have hbl : b.length = dm.batch_size := by
    rw [seqMap_length hb, pySliceNeg_length _ _ _ (by omega)]
    simp only [List.length_map, List.length_range]
    omega
  have hnp : npSub a b = some (List.zipWith (fun x y => x - y) a b) := by
    unfold npSub
    rw [if_pos (by rw [hal, hbl])]
  obtain ⟨buf, hbuf⟩ := @fillBlocks_total _ dm.images s dm.batch_size
    dm.add_frames dm.seq_len (by omega) haf (List.range dm.seq_len)
    dm.image_stack_batch (fun bk hbk => List.mem_range.mp hbk) hwf1
  have hbuf2 : fillBlocks dm.images s dm.winLen dm.add_frames dm.seq_len
      (List.range dm.seq_len) dm.image_stack_batch = some buf := by
    rw [hL]
    exact hbuf
  refine ⟨({ dm with image_stack_batch := buf },
    (buf, List.zipWith (fun x y => x - y) a b)), ?_⟩
  simp only [dataStep]
  rw [ha, Option.some_bind, hb, Option.some_bind, hnp, Option.some_bind,
    hbuf2, Option.some_bind]

theorem dataStep_state [Sub P] {dm : DM α P} {s : Nat}
    {out : DM α P × (List (List (Option α)) × List P)}
    (h : dataStep dm s = some out) :
    out.1.poses = dm.poses ∧ out.1.images = dm.images ∧
    out.1.seq_len = dm.seq_len ∧ out.1.batch_size = dm.batch_size ∧
    out.2.1 = out.1.image_stack_batch ∧
    out.1.image_stack_batch.length = dm.image_stack_batch.length ∧
    ∀ e : Nat, out.1.image_stack_batch[e]?.map List.length =
      dm.image_stack_batch[e]?.map List.length := by
  obtain ⟨a, b, diff, buf, ha, hb, hdiff, hbuf, rfl⟩ := dataStep_inv h
  obtain ⟨h1, h2⟩ := fillBlocks_dims hbuf
  exact ⟨rfl, rfl, rfl, rfl, rfl, h1, h2⟩

theorem dataStep_sizes [Sub P] {dm : DM α P} {s : Nat}
    {out : DM α P × (List (List (Option α)) × List P)}
    (h : dataStep dm s = some out)
    (hwf1 : dm.image_stack_batch.length = dm.batch_size)
    (hsl : 2 ≤ dm.seq_len) :
    out.2.1.length = dm.batch_size ∧ out.2.2.length = dm.batch_size := by
  obtain ⟨a, b, diff, buf, ha, hb, hdiff, hbuf, rfl⟩ := dataStep_inv h
  have haf : dm.add_frames = dm.seq_len - 1 := rfl
  have hL : dm.winLen = dm.batch_size + dm.add_frames := rfl
  have hal : a.length = dm.batch_size := by
    rw [seqMap_length ha]
    simp only [List.length_drop, List.length_map, List.length_range]
    omega
  have hbl : b.length = dm.batch_size := by
    rw [seqMap_length hb, pySliceNeg_length _ _ _ (by omega)]
    simp only [List.length_map, List.length_range]
    omega
  constructor
  · obtain ⟨h1, _⟩ := fillBlocks_dims hbuf
    simpa [hwf1] using h1
  · unfold npSub at hdiff
    rw [if_pos (by rw [hal, hbl])] at hdiff
    cases hdiff
    rw [List.length_zipWith]
    omega

theorem mkDataManager_wf (imgs : List α) (poses : List P) (bs sl : Nat) :
    (mkDataManager (P := P) imgs poses bs sl).image_stack_batch.length = bs ∧
    ∀ (e : Nat) (row : List (Option α)),
      (mkDataManager (P := P) imgs poses bs sl).image_stack_batch[e]? = some row →
      sl ≤ row.length := by
  constructor
  · simp [mkDataManager]
  · intro e row h
    simp only [mkDataManager] at h
    rw [List.getElem?_replicate] at h
    split at h
    · cases h
      simp
    · cases h


theorem runFrom_cons_break [Sub P] {dm : DM α P} {s : Nat} {rest : List Nat}
    (hc : dm.N < s + dm.winLen) :
    runFrom dm (s :: rest) = ⟨[], false, dm⟩ := by
  simp only [runFrom]
  rw [if_pos hc]

theorem runFrom_cons_err [Sub P] {dm : DM α P} {s : Nat} {rest : List Nat}
    (hc : ¬ dm.N < s + dm.winLen) (hstep : dataStep dm s = none) :
    runFrom dm (s :: rest) = ⟨[], true, dm⟩ := by
  simp only [runFrom]
  rw [if_neg hc, hstep]

theorem runFrom_cons_some [Sub P] {dm : DM α P} {s : Nat} {rest : List Nat}
    {out : DM α P × (List (List (Option α)) × List P)}
    (hc : ¬ dm.N < s + dm.winLen) (hstep : dataStep dm s = some out) :
    runFrom dm (s :: rest) =
      ⟨out.2 :: (runFrom out.1 rest).yields, (runFrom out.1 rest).err,
        (runFrom out.1 rest).final⟩ := by
  obtain ⟨dm1, y⟩ := out
  simp only [runFrom]
  rw [if_neg hc, hstep]

theorem runFrom_final [Sub P] :
    ∀ (ss : List Nat) (dm : DM α P),
      (runFrom dm ss).final.images = dm.images ∧
      (runFrom dm ss).final.poses = dm.poses := by
  intro ss
  induction ss with
  | nil => intro dm; exact ⟨rfl, rfl⟩
  | cons s rest ih =>
    intro dm
    by_cases hc : dm.N < s + dm.winLen
    · rw [runFrom_cons_break hc]
      exact ⟨rfl, rfl⟩
    · cases hstep : dataStep dm s with
      | none =>
        rw [runFrom_cons_err hc hstep]
        exact ⟨rfl, rfl⟩
      | some out =>
        rw [runFrom_cons_some hc hstep]
        obtain ⟨hp, hi, -⟩ := dataStep_state hstep
        exact ⟨(ih out.1).1.trans hi, (ih out.1).2.trans hp⟩

theorem runFrom_yield_origin [Sub P] :
    ∀ (ss : List Nat) (dm : DM α P) (k : Nat)
      (y : List (List (Option α)) × List P),
      (runFrom dm ss).yields[k]? = some y →
      dm.image_stack_batch.length = dm.batch_size →
      (∀ (e : Nat) (row : List (Option α)),
        dm.image_stack_batch[e]? = some row → dm.seq_len ≤ row.length) →
      ∃ s dmk out, ss[k]? = some s ∧
        dmk.poses = dm.poses ∧ dmk.images = dm.images ∧
        dmk.seq_len = dm.seq_len ∧ dmk.batch_size = dm.batch_size ∧
        dmk.image_stack_batch.length = dmk.batch_size ∧
        (∀ (e : Nat) (row : List (Option α)),
          dmk.image_stack_batch[e]? = some row → dmk.seq_len ≤ row.length) ∧
        s + dm.winLen ≤ dm.images.length ∧
        dataStep dmk s = some out ∧ out.2 = y := by
  intro ss
  induction ss with
  | nil =>
    intro dm k y h _ _
    simp [runFrom] at h
  | cons s rest ih =>
    intro dm k y h hwf1 hwf2
    by_cases hc : dm.N < s + dm.winLen
    · rw [runFrom_cons_break hc] at h
      simp at h
    · cases hstep : dataStep dm s with
      | none =>
        rw [runFrom_cons_err hc hstep] at h
        simp at h
      | some out =>
        rw [runFrom_cons_some hc hstep] at h
        obtain ⟨hp, hi, hsl, hbs, hy, hblen, hbrow⟩ := dataStep_state hstep
        have hNlt : s + dm.winLen ≤ dm.images.length := by
          have hN : dm.N = dm.images.length := rfl
          omega
        cases k with
        | zero =>
          rw [List.getElem?_cons_zero] at h
          exact ⟨s, dm, out, List.getElem?_cons_zero, rfl, rfl, rfl, rfl,
            hwf1, hwf2, hNlt, hstep, Option.some.inj h⟩
        | succ k =>
          rw [List.getElem?_cons_succ] at h
          have hwf1' : out.1.image_stack_batch.length = out.1.batch_size := by
            rw [hblen, hwf1, hbs]
          have hwf2' : ∀ (e : Nat) (row : List (Option α)),
              out.1.image_stack_batch[e]? = some row →
              out.1.seq_len ≤ row.length := by
            intro e row hr
            have hre := hbrow e
            rw [hr] at hre
            cases hb : dm.image_stack_batch[e]? with
            | none => rw [hb] at hre; cases hre
            | some row0 =>
              rw [hb] at hre
              have hle : row.length = row0.length := by simpa using hre
              rw [hsl, hle]
              exact hwf2 e row0 hb
          obtain ⟨s1, dmk, out1, hss, c1, c2, c3, c4, c5, c6, c7, c8, c9⟩ :=
            ih out.1 k y h hwf1' hwf2'
          have hwin : out.1.winLen = dm.winLen := by
            unfold DM.winLen DM.add_frames
            rw [hbs, hsl]
          refine ⟨s1, dmk, out1, ?_, c1.trans hp, c2.trans hi, c3.trans hsl,
            c4.trans hbs, c5, c6, ?_, c8, c9⟩
          · rw [List.getElem?_cons_succ]
            exact hss
          · rw [← hwin, ← hi]
            exact c7

theorem runFrom_count [Sub P] (imgs : List α) (poses : List P) (bs sl : Nat)
    (hsl : 2 ≤ sl) (hlen : imgs.length ≤ poses.length) :
    ∀ (n a : Nat) (dm : DM α P),
      dm.images = imgs → dm.poses = poses → dm.batch_size = bs → dm.seq_len = sl →
      dm.image_stack_batch.length = bs →
      (runFrom dm ((List.range' a n).map (· * (bs + (sl - 1))))).err = false ∧
      (runFrom dm ((List.range' a n).map (· * (bs + (sl - 1))))).yields.length =
        min (imgs.length / (bs + (sl - 1))) (a + n) - a ∧
      ∀ y ∈ (runFrom dm ((List.range' a n).map (· * (bs + (sl - 1))))).yields,
        y.1.length = bs ∧ y.2.length = bs := by
  intro n
  induction n with
  | zero =>
    intro a dm _ _ _ _ _
    refine ⟨rfl, ?_, ?_⟩
    · have : min (imgs.length / (bs + (sl - 1))) (a + 0) - a = 0 := by omega
      rw [this]
      rfl
    · intro y hy
      simp [List.range'] at hy
      cases hy
  | succ n ihn =>
    intro a dm h1 h2 h3 h4 h5
    have hL1 : 0 < bs + (sl - 1) := by omega
    have hwin : dm.winLen = bs + (sl - 1) := by
      unfold DM.winLen DM.add_frames
      rw [h3, h4]
    have hN : dm.N = imgs.length := by
      rw [show dm.N = dm.images.length from rfl, h1]
    have hmul : a * (bs + (sl - 1)) + (bs + (sl - 1)) = (a + 1) * (bs + (sl - 1)) := by
      rw [Nat.succ_mul]
    rw [List.range'_succ, List.map_cons]
    by_cases hc : (a + 1) * (bs + (sl - 1)) ≤ imgs.length
    · have hnot : ¬ dm.N < a * (bs + (sl - 1)) + dm.winLen := by
        rw [hN, hwin, hmul]
        omega
      obtain ⟨out, hstep⟩ := @dataStep_total _ _ _ dm (a * (bs + (sl - 1)))
        (by rw [h5, h3]) (by omega) (by rw [h1, h2]; exact hlen)
        (by rw [hwin, h1, hmul]; exact hc)
      obtain ⟨hp, hi, hsl1, hbs1, hy1, hblen, hbrow⟩ := dataStep_state hstep
      obtain ⟨hsz1, hsz2⟩ := dataStep_sizes hstep (by rw [h5, h3]) (by omega)
      rw [runFrom_cons_some hnot hstep]
      obtain ⟨ih1, ih2, ih3⟩ := ihn (a + 1) out.1
        (hi.trans h1) (hp.trans h2) (hbs1.trans h3) (hsl1.trans h4)
        (by rw [hblen, h5])
      have ha1 : a + 1 ≤ imgs.length / (bs + (sl - 1)) :=
        (Nat.le_div_iff_mul_le hL1).mpr hc
      refine ⟨ih1, ?_, ?_⟩
      · simp only [List.length_cons, ih2]
        omega
      · intro y hy
        rcases List.mem_cons.mp hy with rfl | hmem
        · exact ⟨by rw [hsz1, h3], by rw [hsz2, h3]⟩
        · exact ih3 y hmem
    · have hlt : dm.N < a * (bs + (sl - 1)) + dm.winLen := by
        rw [hN, hwin, hmul]
        omega
      rw [runFrom_cons_break hlt]
      have hq : imgs.length / (bs + (sl - 1)) ≤ a := by
        have := (Nat.div_lt_iff_lt_mul hL1).mpr (Nat.lt_of_not_le hc)
        omega
      refine ⟨rfl, ?_, ?_⟩
      · have : min (imgs.length / (bs + (sl - 1))) (a + (n + 1)) - a = 0 := by omega
        rw [this]
        rfl
      · intro y hy
        cases hy


/-! ### Claim theorems -/

/-- Claim C1: for every batch yielded by `DataManager.batches()`, every
example `e < batch_size` and every channel-block index `idx < seq_len`,
the channel slice `[C*idx, C*(idx+1))` of the yielded stacked batch at
example `e` holds exactly frame `global_index(e) + idx` of the stored
image sequence, where `global_index(e) = batch_offset + e` and the `k`-th
yielded batch has `batch_offset = k * (batch_size + seq_len - 1)`; in
particular the first block is the earliest frame of the window and the
last block the most recent, oldest first. -/
theorem c1_stacked_block_content [Sub P] (imgs : List α) (poses : List P)
    (bs sl k e idx : Nat) (y : List (List (Option α)) × List P)
    (hy : (runBatches (mkDataManager imgs poses bs sl)).yields[k]? = some y)
    (he : e < bs) (hidx : idx < sl) :
    ∃ f, imgs[k * (bs + (sl - 1)) + e + idx]? = some f ∧
      y.1[e]?.bind (fun row => row[idx]?) = some (some f) := by
  unfold runBatches at hy
  by_cases h0 : (mkDataManager (P := P) imgs poses bs sl).winLen = 0
  · rw [if_pos h0] at hy
    simp at hy
  · rw [if_neg h0] at hy
    obtain ⟨hw1, hw2⟩ := mkDataManager_wf (P := P) imgs poses bs sl
    obtain ⟨s, dmk, out, hss, c1, c2, c3, c4, c5, c6, c7, c8, c9⟩ :=
      runFrom_yield_origin _ _ k y hy hw1 hw2
    have hs : s = k * (bs + (sl - 1)) := pyRange_getElem?_some hss
    obtain ⟨a, b, diff, buf, ha, hb, hdiff, hfill, hout⟩ := dataStep_inv c8
    have hy2 : y = (buf, diff) := by
      rw [← c9, hout]
    have hfill2 : fillBlocks dmk.images s (dmk.batch_size + dmk.add_frames)
        dmk.add_frames dmk.seq_len (List.range dmk.seq_len)
        dmk.image_stack_batch = some buf := hfill
    have hcells := (fillBlocks_cells hfill2
      (fun bk hbk => List.mem_range.mp hbk) rfl c5 c6).1
    have he2 : e < dmk.batch_size := by
      rw [c4]
      exact he
    have hidx2 : idx ∈ List.range dmk.seq_len :=
      List.mem_range.mpr (by rw [c3]; exact hidx)
    obtain ⟨f, hf1, hf2⟩ := hcells e idx he2 hidx2
    have himg : dmk.images = imgs := c2
    rw [himg] at hf1
    refine ⟨f, ?_, ?_⟩
    · rw [show k * (bs + (sl - 1)) + e + idx = s + idx + e by omega]
      exact hf1
    · rw [hy2]
      exact hf2

/-- Concrete run of `c1_stacked_block_content`: six frames, `batch_size = 2`,
`seq_len = 2`; the second yielded batch, example 1, block 1 holds frame 5. -/
theorem c1_stacked_block_content_witness : ∃ f,
    ([10, 20, 30, 40, 50, 60] : List Nat)[1 * (2 + (2 - 1)) + 1 + 1]? = some f ∧
    (([[some 40, some 50], [some 50, some 60]], [(1 : Int), 1]) :
      List (List (Option Nat)) × List Int).1[1]?.bind (fun row => row[1]?) =
      some (some f) :=
  c1_stacked_block_content [10, 20, 30, 40, 50, 60] [(0 : Int), 1, 2, 3, 4, 5]
    2 2 1 1 1 ([[some 40, some 50], [some 50, some 60]], [(1 : Int), 1])
    (by decide) (by decide) (by decide)


/-- Claim C2, amended to require `seq_len ≥ 2`: for every batch yielded by
`DataManager.batches()` and every example `e < batch_size`, row `e` of the
yielded pose-delta array equals
`pose[global_index(e) + seq_len - 1] - pose[global_index(e)]`, the pose at
the example's last constituent frame minus the pose at its first.  (For
`seq_len = 1` the claim fails: see the counterexample, where a batch is
yielded whose delta array has no rows.) -/
theorem c2_pose_delta_rows [Sub P] (imgs : List α) (poses : List P)
    (bs sl k e : Nat) (y : List (List (Option α)) × List P)
    (hsl : 2 ≤ sl)
    (hy : (runBatches (mkDataManager imgs poses bs sl)).yields[k]? = some y)
    (he : e < bs) :
    ∃ p q, poses[k * (bs + (sl - 1)) + e + (sl - 1)]? = some p ∧
      poses[k * (bs + (sl - 1)) + e]? = some q ∧
      y.2[e]? = some (p - q) := by
  unfold runBatches at hy
  by_cases h0 : (mkDataManager (P := P) imgs poses bs sl).winLen = 0
  · rw [if_pos h0] at hy
    simp at hy
  · rw [if_neg h0] at hy
    obtain ⟨hw1, hw2⟩ := mkDataManager_wf (P := P) imgs poses bs sl
    obtain ⟨s, dmk, out, hss, c1, c2, c3, c4, c5, c6, c7, c8, c9⟩ :=
      runFrom_yield_origin _ _ k y hy hw1 hw2
    have hs : s = k * (bs + (sl - 1)) := pyRange_getElem?_some hss
    obtain ⟨a, b, diff, buf, ha, hb, hdiff, hfill, hout⟩ := dataStep_inv c8
    have hy2 : y = (buf, diff) := by
      rw [← c9, hout]
    have hsl2 : dmk.seq_len = sl := c3
    have hbs2 : dmk.batch_size = bs := c4
    have haf : dmk.add_frames = sl - 1 := by
      unfold DM.add_frames
      rw [hsl2]
    have hwinL : dmk.winLen = bs + (sl - 1) := by
      unfold DM.winLen DM.add_frames
      rw [hsl2, hbs2]
    have hposk : dmk.poses = poses := c1
    have hal : a.length = bs := by
      rw [seqMap_length ha]
      simp only [List.length_drop, List.length_map, List.length_range]
      omega
    have hbl : b.length = bs := by
      rw [seqMap_length hb,
        pySliceNeg_length _ _ _ (by omega : dmk.add_frames ≠ 0)]
      simp only [List.length_map, List.length_range]
      omega
    have hae : a[e]? = dmk.poses[dmk.add_frames + e + s]? := by
      rw [seqMap_getElem? ha e, List.getElem?_drop, List.getElem?_map,
        List.getElem?_range (by omega : dmk.add_frames + e < dmk.winLen)]
      simp
    have hbe : b[e]? = dmk.poses[e + s]? := by
      rw [seqMap_getElem? hb e,
        pySliceNeg_getElem? _ _ _ _ (by omega : dmk.add_frames ≠ 0)]
      simp only [List.length_map, List.length_range]
      rw [if_pos (by omega), List.getElem?_map,
        List.getElem?_range (by omega : 0 + e < dmk.winLen)]
      simp
    obtain ⟨p, hp⟩ := getElem?_some_of_lt (l := a) (by omega : e < a.length)
    obtain ⟨q, hq⟩ := getElem?_some_of_lt (l := b) (by omega : e < b.length)
    unfold npSub at hdiff
    rw [if_pos (by rw [hal, hbl])] at hdiff
    cases hdiff
    refine ⟨p, q, ?_, ?_, ?_⟩
    · rw [show k * (bs + (sl - 1)) + e + (sl - 1) = dmk.add_frames + e + s
        by omega]
      rw [← hposk, ← hae]
      exact hp
    · rw [show k * (bs + (sl - 1)) + e = e + s by omega]
      rw [← hposk, ← hbe]
      exact hq
    · rw [hy2]
      show (List.zipWith (fun x y => x - y) a b)[e]? = some (p - q)
      rw [List.getElem?_zipWith', hp, hq]
      rfl

/-- Claim C2 counterexample: with `seq_len = 1` and `batch_size = 1` a
batch is yielded (numpy broadcasts the shape-(1,P) minus shape-(0,P)
subtraction to shape (0,P)), and its pose-delta array has no row 0 even
though example 0 exists, so the claimed per-example delta equation is
false for that yielded batch. -/
theorem c2_counterexample :
    (runBatches (mkDataManager [10] [(3 : Int)] 1 1)).yields =
      [([[some 10]], [])] ∧
    ((runBatches (mkDataManager [10] [(3 : Int)] 1 1)).yields.map
      (fun y => y.2[0]?)) = [none] := by decide

/-- Concrete run of `c2_pose_delta_rows`: first batch, example 1, with
consecutive integer poses; the delta row is `pose[2] - pose[1]`. -/
theorem c2_pose_delta_rows_witness : ∃ p q,
    ([(0 : Int), 1, 2, 3, 4, 5] : List Int)[0 * (2 + (2 - 1)) + 1 + (2 - 1)]? =
      some p ∧
    ([(0 : Int), 1, 2, 3, 4, 5] : List Int)[0 * (2 + (2 - 1)) + 1]? = some q ∧
    (([[some 10, some 20], [some 20, some 30]], [(1 : Int), 1]) :
      List (List (Option Nat)) × List Int).2[1]? = some (p - q) :=
  c2_pose_delta_rows [10, 20, 30, 40, 50, 60] [(0 : Int), 1, 2, 3, 4, 5]
    2 2 0 1 ([[some 10, some 20], [some 20, some 30]], [(1 : Int), 1])
    (by decide) (by decide) (by decide)

/-- Claim C3, amended to require `seq_len ≥ 2` (and the data-model
invariant `len(poses) = len(frames)`): `DataManager.batches()` yields
exactly `floor(N / (batch_size + seq_len - 1))` batches, each with exactly
`batch_size` stacked examples and `batch_size` pose-delta rows, and
terminates silently (no escaping exception) when fewer than
`batch_size + add_frames` frames remain; `N = batch_size + add_frames`
gives exactly one batch.  (For `seq_len = 1` the claim fails: see the
counterexample, where the run errors instead of terminating silently.) -/
theorem c3_batch_count [Sub P] (imgs : List α) (poses : List P) (bs sl : Nat)
    (hsl : 2 ≤ sl) (hlen : poses.length = imgs.length) :
    (runBatches (mkDataManager imgs poses bs sl)).err = false ∧
    (runBatches (mkDataManager imgs poses bs sl)).yields.length =
      imgs.length / (bs + (sl - 1)) ∧
    ∀ y ∈ (runBatches (mkDataManager imgs poses bs sl)).yields,
      y.1.length = bs ∧ y.2.length = bs := by
  have hwin : (mkDataManager (P := P) imgs poses bs sl).winLen = bs + (sl - 1) :=
    rfl
  have h0 : ¬ (mkDataManager (P := P) imgs poses bs sl).winLen = 0 := by
    rw [hwin]
    omega
  unfold runBatches
  rw [if_neg h0]
  have hN : (mkDataManager (P := P) imgs poses bs sl).N = imgs.length := rfl
  rw [hN, hwin]
  unfold pyRange
  rw [List.range_eq_range']
  obtain ⟨e1, e2, e3⟩ := runFrom_count imgs poses bs sl hsl (le_of_eq hlen.symm)
    ((imgs.length + (bs + (sl - 1)) - 1) / (bs + (sl - 1))) 0
    (mkDataManager imgs poses bs sl) rfl rfl rfl rfl
    (mkDataManager_wf imgs poses bs sl).1
  refine ⟨e1, ?_, e3⟩
  have hq : imgs.length / (bs + (sl - 1)) ≤
      (imgs.length + (bs + (sl - 1)) - 1) / (bs + (sl - 1)) :=
    Nat.div_le_div_right (by omega)
  rw [e2, Nat.zero_add, min_eq_left hq, Nat.sub_zero]

/-- Claim C3 counterexample: `batch_size = 2`, `seq_len = 1`, two frames
and two poses; the claim predicts `floor(2/2) = 1` silent batch, but the
code raises a broadcasting `ValueError` on the first step and yields
nothing. -/
theorem c3_counterexample :
    (runBatches (mkDataManager [10, 20] [(3 : Int), 4] 2 1)).yields.length = 0 ∧
    (runBatches (mkDataManager [10, 20] [(3 : Int), 4] 2 1)).err = true := by
  decide

/-- Concrete run of `c3_batch_count`: six frames, `batch_size = 2`,
`seq_len = 2`, so exactly `6 / 3 = 2` full batches and no error. -/
theorem c3_batch_count_witness :
    (runBatches (mkDataManager [10, 20, 30, 40, 50, 60]
      [(0 : Int), 1, 2, 3, 4, 5] 2 2)).err = false ∧
    (runBatches (mkDataManager [10, 20, 30, 40, 50, 60]
      [(0 : Int), 1, 2, 3, 4, 5] 2 2)).yields.length =
      ([10, 20, 30, 40, 50, 60] : List Nat).length / (2 + (2 - 1)) ∧
    ∀ y ∈ (runBatches (mkDataManager [10, 20, 30, 40, 50, 60]
      [(0 : Int), 1, 2, 3, 4, 5] 2 2)).yields,
      y.1.length = 2 ∧ y.2.length = 2 :=
  c3_batch_count [10, 20, 30, 40, 50, 60] [(0 : Int), 1, 2, 3, 4, 5] 2 2
    (by decide) (by decide)


/-- Claim C6, amended: constructing a `DataManager` performs no shape
validation at all — it succeeds for every pair of input arrays (equal or
unequal counts), storing them unchanged and allocating the reusable
zero-filled output buffer exactly once; a frame/pose count mismatch is
not detected at construction. -/
theorem c6_construction_never_fails (imgs : List α) (poses : List P)
    (bs sl : Nat) :
    (mkDataManager imgs poses bs sl).images = imgs ∧
    (mkDataManager imgs poses bs sl).poses = poses ∧
    (mkDataManager imgs poses bs sl).seq_len = sl ∧
    (mkDataManager imgs poses bs sl).batch_size = bs ∧
    (mkDataManager imgs poses bs sl).image_stack_batch =
      List.replicate bs (List.replicate sl none) :=
  ⟨rfl, rfl, rfl, rfl, rfl⟩

/-- Claim C6 counterexample: three frames but only two poses — the claim
says construction must fail immediately with a shape-mismatch error, yet
the constructor returns a fully formed manager, and the subsequent pass
even yields a batch without any error. -/
theorem c6_counterexample :
    mkDataManager [10, 20, 30] [(5 : Int), 7] 1 2 =
      ⟨[(5 : Int), 7], [10, 20, 30], 2, 1, [[none, none]]⟩ ∧
    (runBatches (mkDataManager [10, 20, 30] [(5 : Int), 7] 1 2)).err = false ∧
    (runBatches (mkDataManager [10, 20, 30] [(5 : Int), 7] 1 2)).yields.length
      = 1 := by
  decide

/-- Claim C7: across a pass of `DataManager.batches()` the stored frame
and pose arrays are never mutated (every step preserves them, and the
final state of any pass still holds the originals); every yielded stacked
batch is the manager's single reusable buffer — the yielded array is
exactly the post-step buffer field, overwritten in place, with first-axis
length and per-row block counts unchanged by every step (no
reallocation); and that buffer is created exactly once at construction as
the zero-filled `batch_size × seq_len` block array. -/
theorem c7_buffer_reuse [Sub P] :
    (∀ (dm : DM α P) (s : Nat)
      (out : DM α P × (List (List (Option α)) × List P)),
      dataStep dm s = some out →
      out.1.images = dm.images ∧ out.1.poses = dm.poses ∧
      out.2.1 = out.1.image_stack_batch ∧
      out.1.image_stack_batch.length = dm.image_stack_batch.length ∧
      ∀ e : Nat, out.1.image_stack_batch[e]?.map List.length =
        dm.image_stack_batch[e]?.map List.length) ∧
    (∀ (dm : DM α P) (ss : List Nat),
      (runFrom dm ss).final.images = dm.images ∧
      (runFrom dm ss).final.poses = dm.poses) ∧
    (∀ (imgs : List α) (poses : List P) (bs sl : Nat),
      (mkDataManager imgs poses bs sl).image_stack_batch =
        List.replicate bs (List.replicate sl none)) := by
  refine ⟨?_, ?_, ?_⟩
  · intro dm s out h
    obtain ⟨hp, hi, _, _, hy, hl, hr⟩ := dataStep_state h
    exact ⟨hi, hp, hy, hl, hr⟩
  · intro dm ss
    exact runFrom_final ss dm
  · intro imgs poses bs sl
    rfl

/-- Concrete run of `c7_buffer_reuse`: one step of a two-frame manager;
the stepped state keeps the frame and pose arrays and the yielded batch
is the state's buffer. -/
theorem c7_buffer_reuse_witness :
    (⟨[(1 : Int), 2], [10, 20], 2, 1, [[some 10, some 20]]⟩ : DM Nat Int).images =
      (mkDataManager [10, 20] [(1 : Int), 2] 1 2).images ∧
    (⟨[(1 : Int), 2], [10, 20], 2, 1, [[some 10, some 20]]⟩ : DM Nat Int).poses =
      (mkDataManager [10, 20] [(1 : Int), 2] 1 2).poses ∧
    ([[some 10, some 20]] : List (List (Option Nat))) =
      (⟨[(1 : Int), 2], [10, 20], 2, 1, [[some 10, some 20]]⟩ :
        DM Nat Int).image_stack_batch := by
  have h := (c7_buffer_reuse (α := Nat) (P := Int)).1
    (mkDataManager [10, 20] [(1 : Int), 2] 1 2) 0
    (⟨[(1 : Int), 2], [10, 20], 2, 1, [[some 10, some 20]]⟩,
      ([[some 10, some 20]], [(1 : Int)])) (by decide)
  exact ⟨h.1, h.2.1, h.2.2.1⟩

/-- Claim C9, amended: if a `DataManager` is built with `seq_len = 1` (so
`add_frames = 0`) and `batch_size ≥ 2`, with at least `batch_size` frames,
the first step of `batches()` raises an error instead of yielding:
`image_indices_global[:-0]` selects zero pose rows, and subtracting a
`(0, P)` array from a `(batch_size, P)` array fails to broadcast.  (For
`batch_size = 1` the claim as stated fails — numpy broadcasts the
length-1 operand against length 0 and a batch with an empty delta array
is yielded; see the counterexample.) -/
theorem c9_seq_len_one_errors [Sub P] (imgs : List α) (poses : List P)
    (bs : Nat) (hbs : 2 ≤ bs) (hN : bs ≤ imgs.length) :
    (runBatches (mkDataManager imgs poses bs 1)).yields = [] ∧
    (runBatches (mkDataManager imgs poses bs 1)).err = true := by
  have hNr : (mkDataManager (P := P) imgs poses bs 1).N = imgs.length := rfl
  have hwin : (mkDataManager (P := P) imgs poses bs 1).winLen = bs := rfl
  have hstep : dataStep (mkDataManager (P := P) imgs poses bs 1) 0 = none := by
    cases hd : dataStep (mkDataManager (P := P) imgs poses bs 1) 0 with
    | none => rfl
    | some out =>
      exfalso
      obtain ⟨a, b, diff, buf, ha, hb, hdiff, hfill, hout⟩ := dataStep_inv hd
      have hb0 : seqMap
          (fun i => (mkDataManager (P := P) imgs poses bs 1).poses[i]?)
          (pySliceNeg
            ((List.range (mkDataManager (P := P) imgs poses bs 1).winLen).map
              (· + 0)) 0
            (mkDataManager (P := P) imgs poses bs 1).add_frames) = some [] := rfl
      rw [hb0] at hb
      have hb2 : b = [] := (Option.some.inj hb).symm
      have hal : a.length = bs := by
        rw [seqMap_length ha]
        simp only [List.length_drop, List.length_map, List.length_range]
        have h1 : (mkDataManager (P := P) imgs poses bs 1).winLen = bs := rfl
        have h2 : (mkDataManager (P := P) imgs poses bs 1).add_frames = 0 := rfl
        omega
      rw [hb2] at hdiff
      unfold npSub at hdiff
      rw [if_neg (by simp [hal]; omega)] at hdiff
      rcases a with _ | ⟨x, _ | ⟨z, t⟩⟩
      · simp at hal
        omega
      · simp at hal
        omega
      · exact Option.noConfusion hdiff
  unfold runBatches
  rw [if_neg (by rw [hwin]; omega)]
  rw [hNr, hwin]
  unfold pyRange
  obtain ⟨m, hm2⟩ : ∃ m, (imgs.length + bs - 1) / bs = m + 1 := by
    have h1 : 1 ≤ (imgs.length + bs - 1) / bs :=
      (Nat.le_div_iff_mul_le (by omega)).mpr (by omega)
    exact ⟨(imgs.length + bs - 1) / bs - 1, by omega⟩
  rw [hm2, List.range_eq_range', List.range'_succ]
  simp only [List.map_cons, Nat.zero_mul]
  have hc : ¬ (mkDataManager (P := P) imgs poses bs 1).N <
      0 + (mkDataManager (P := P) imgs poses bs 1).winLen := by
    rw [hNr, hwin]
    omega
  rw [runFrom_cons_err hc hstep]
  exact ⟨rfl, rfl⟩

/-- Claim C9 counterexample: `seq_len = 1`, `batch_size = 1`, one frame —
instead of raising, the first step yields a batch whose pose-delta array
is empty (numpy broadcasts shape `(1,P)` minus shape `(0,P)` to `(0,P)`). -/
theorem c9_counterexample :
    (runBatches (mkDataManager [7] [(2 : Int)] 1 1)).err = false ∧
    (runBatches (mkDataManager [7] [(2 : Int)] 1 1)).yields =
      [([[some 7]], [])] := by
  decide

/-- Concrete run of `c9_seq_len_one_errors`: two frames, `batch_size = 2`,
`seq_len = 1` — no batch is yielded and the error flag is set. -/
theorem c9_seq_len_one_errors_witness :
    (runBatches (mkDataManager [11, 22] [(3 : Int), 4] 2 1)).yields = [] ∧
    (runBatches (mkDataManager [11, 22] [(3 : Int), 4] 2 1)).err = true :=
  c9_seq_len_one_errors [11, 22] [(3 : Int), 4] 2 (by decide) (by decide)


/-! ### Lemmas about `image_pairs` -/

theorem fillPairsAux_length (stacked : List α) :
    ∀ (ks : List Nat) (ch : Chunk α),
      (fillPairsAux stacked ks ch).length = ch.length := by
  intro ks
  induction ks with
  | nil => intro ch; rfl
  | cons k rest ih =>
    intro ch
    simp only [fillPairsAux]
    rw [ih, List.length_set]

theorem fillPairsAux_getElem? (stacked : List α) :
    ∀ (ks : List Nat) (ch : Chunk α) (j : Nat),
      (fillPairsAux stacked ks ch)[j]? =
        if j ∈ ks ∧ j < ch.length then
          some (stacked[2 * j]?, stacked[2 * j + 1]?)
        else ch[j]? := by
  intro ks
  induction ks with
  | nil =>
    intro ch j
    simp [fillPairsAux]
  | cons k rest ih =>
    intro ch j
    simp only [fillPairsAux]
    rw [ih, List.length_set]
    by_cases hj : j < ch.length
    · by_cases hr : j ∈ rest
      · rw [if_pos ⟨hr, hj⟩, if_pos ⟨List.mem_cons_of_mem k hr, hj⟩]
      · have hn1 : ¬ (j ∈ rest ∧ j < ch.length) := fun hcon => hr hcon.1
        rw [if_neg hn1, List.getElem?_set]
        by_cases hkj : k = j
        · subst hkj
          rw [if_pos rfl, if_pos hj, if_pos ⟨List.mem_cons_self k rest, hj⟩]
        · have hn2 : ¬ (j ∈ k :: rest ∧ j < ch.length) := by
            rintro ⟨hmem, -⟩
            rcases List.mem_cons.mp hmem with h1 | h1
            · exact hkj h1.symm
            · exact hr h1
          rw [if_neg hkj, if_neg hn2]
    · have hnone : ch[j]? = none := List.getElem?_eq_none (by omega)
      have hn1 : ¬ (j ∈ rest ∧ j < ch.length) := fun hcon => hj hcon.2
      have hn2 : ¬ (j ∈ k :: rest ∧ j < ch.length) := fun hcon => hj hcon.2
      rw [if_neg hn1, List.getElem?_set, if_neg hn2]
      by_cases hkj : k = j
      · subst hkj
        rw [if_pos rfl, if_neg (by omega), hnone]
      · rw [if_neg hkj]

theorem stackedIndices_length (Lm1 idx : Nat) :
    (stackedIndices Lm1 idx).length = 2 * Lm1 := by
  simp [stackedIndices]

theorem stackedIndices_getElem?_even (Lm1 idx k : Nat) (hk : k < Lm1) :
    (stackedIndices Lm1 idx)[2 * k]? = some ((idx + k) % 256) := by
  unfold stackedIndices
  rw [List.getElem?_map, List.getElem?_range (by omega)]
  simp [show idx + 2 * k / 2 + 2 * k % 2 = idx + k from by omega]

theorem stackedIndices_getElem?_odd (Lm1 idx k : Nat) (hk : k < Lm1) :
    (stackedIndices Lm1 idx)[2 * k + 1]? = some ((idx + k + 1) % 256) := by
  unfold stackedIndices
  rw [List.getElem?_map, List.getElem?_range (by omega)]
  simp [show idx + (2 * k + 1) / 2 + (2 * k + 1) % 2 = idx + k + 1 from by omega]

theorem buildChunk_inv {seq : List α} {L idx : Nat} {ch : Chunk α}
    (h : buildChunk seq L idx = some ch) :
    ∃ stacked,
      seqMap (fun i => seq[i]?) (stackedIndices (L - 1) idx) = some stacked ∧
      ch = fillPairsAux stacked (List.range (L - 1))
        (List.replicate L ((none, none) : Option α × Option α)) := by
  unfold buildChunk at h
  cases hsm : seqMap (fun i => seq[i]?) (stackedIndices (L - 1) idx) with
  | none => rw [hsm] at h; cases h
  | some stacked =>
    rw [hsm] at h
    exact ⟨stacked, rfl, (Option.some.inj h).symm⟩

theorem buildChunk_slot {seq : List α} {L idx : Nat} {ch : Chunk α}
    (h : buildChunk seq L idx = some ch) {k : Nat} (hk : k + 1 < L) :
    ∃ a b, seq[(idx + k) % 256]? = some a ∧
      seq[(idx + k + 1) % 256]? = some b ∧
      ch[k]? = some (some a, some b) := by
  obtain ⟨stacked, hsm, rfl⟩ := buildChunk_inv h
  have hlen : stacked.length = 2 * (L - 1) := by
    rw [seqMap_length hsm, stackedIndices_length]
  have he : stacked[2 * k]? = seq[(idx + k) % 256]? := by
    rw [seqMap_getElem? hsm, stackedIndices_getElem?_even _ _ _ (by omega)]
    simp
  have ho : stacked[2 * k + 1]? = seq[(idx + k + 1) % 256]? := by
    rw [seqMap_getElem? hsm, stackedIndices_getElem?_odd _ _ _ (by omega)]
    simp
  obtain ⟨a, hja⟩ := getElem?_some_of_lt (l := stacked)
    (show 2 * k < stacked.length by omega)
  obtain ⟨b, hjb⟩ := getElem?_some_of_lt (l := stacked)
    (show 2 * k + 1 < stacked.length by omega)
  refine ⟨a, b, by rw [← he]; exact hja, by rw [← ho]; exact hjb, ?_⟩
  rw [fillPairsAux_getElem?,
    if_pos ⟨List.mem_range.mpr (by omega),
      by rw [List.length_replicate]; omega⟩,
    hja, hjb]

theorem buildChunk_last_slot {seq : List α} {L idx : Nat} {ch : Chunk α}
    (h : buildChunk seq L idx = some ch) (hL : 1 ≤ L) :
    ch[L - 1]? = some (none, none) := by
  obtain ⟨stacked, hsm, rfl⟩ := buildChunk_inv h
  rw [fillPairsAux_getElem?,
    if_neg (by
      rintro ⟨hmem, -⟩
      exact absurd (List.mem_range.mp hmem) (by omega)),
    List.getElem?_replicate, if_pos (by omega)]

theorem pairsGo_yield_origin [DecidableEq α] {seq : List α} {L : Nat} :
    ∀ (ss : List Nat) (k : Nat) (ch : Chunk α),
      (pairsGo seq L ss).1[k]? = some ch →
      ∃ s, ss[k]? = some s ∧ buildChunk seq L s = some ch ∧
        chunkChecks seq ch = true := by
  intro ss
  induction ss with
  | nil =>
    intro k ch h
    simp [pairsGo] at h
  | cons s rest ih =>
    intro k ch h
    simp only [pairsGo] at h
    cases hbc : buildChunk seq L s with
    | none =>
      rw [hbc] at h
      have h2 : (([], true) : List (Chunk α) × Bool).1[k]? = some ch := h
      simp at h2
    | some ch0 =>
      rw [hbc] at h
      have h2 : ((if chunkChecks seq ch0 then
          (ch0 :: (pairsGo seq L rest).1, (pairsGo seq L rest).2)
        else ([], true)) : List (Chunk α) × Bool).1[k]? = some ch := h
      by_cases hcc : chunkChecks seq ch0
      · rw [if_pos hcc] at h2
        have h3 : (ch0 :: (pairsGo seq L rest).1)[k]? = some ch := h2
        cases k with
        | zero =>
          rw [List.getElem?_cons_zero] at h3
          cases h3
          exact ⟨s, List.getElem?_cons_zero, hbc, hcc⟩
        | succ k =>
          rw [List.getElem?_cons_succ] at h3
          obtain ⟨s1, hs1, hb1, hc1⟩ := ih k ch h3
          exact ⟨s1, by rw [List.getElem?_cons_succ]; exact hs1, hb1, hc1⟩
      · rw [if_neg hcc] at h2
        simp at h2

/-- Claim C4, amended: for every chunk yielded by `image_pairs` — the
`j`-th yielded chunk has start `idx = j * sequence_length` — every slot
`k` with `k + 1 < sequence_length` merges two adjacent input frames, its
first 3 channels being frame `(idx + k) mod 256` and its last 3 channels
frame `(idx + k + 1) mod 256` (the indices are materialised in `uint8`,
and in particular slot 0 holds frames `idx` and `idx + 1` whenever they
fit in 8 bits); the final slot `sequence_length - 1`, however, is left
uninitialised (`np.empty` garbage), so the claim's range `[0,
sequence_length)` is cut to `[0, sequence_length - 1)`. -/
theorem c4_adjacent_pairs [DecidableEq α] (seq : List α) (L j k : Nat)
    (ch : Chunk α)
    (hy : (imagePairsRun seq L).1[j]? = some ch) :
    (k + 1 < L →
      ∃ a b, seq[(j * L + k) % 256]? = some a ∧
        seq[(j * L + k + 1) % 256]? = some b ∧
        ch[k]? = some (some a, some b)) ∧
    (1 ≤ L → ch[L - 1]? = some (none, none)) := by
  unfold imagePairsRun at hy
  by_cases h0 : L = 0
  · rw [if_pos h0] at hy
    simp at hy
  · rw [if_neg h0] at hy
    obtain ⟨s, hs, hbc, hcc⟩ := pairsGo_yield_origin _ j ch hy
    have hsv : s = j * L := pyRange_getElem?_some hs
    subst hsv
    exact ⟨fun hk => buildChunk_slot hbc hk, fun hL => buildChunk_last_slot hbc hL⟩

/-- Claim C4 counterexample: four distinct frames, `sequence_length = 2`;
the yielded chunk's slot `1` (inside the claimed range `[0, 2)`) is the
uninitialised `(none, none)`, not the claimed pair of frames 1 and 2. -/
theorem c4_counterexample :
    (imagePairsRun [10, 20, 30, 40] 2).1[0]? =
      some [(some 10, some 20), (none, none)] ∧
    ((imagePairsRun [10, 20, 30, 40] 2).1[0]?).bind (fun ch => ch[1]?) ≠
      some (some 20, some 30) := by
  decide

/-- Concrete run of `c4_adjacent_pairs`: first chunk of a four-frame
sequence; slot 0 pairs frames 0 and 1 and the final slot is
uninitialised. -/
theorem c4_adjacent_pairs_witness :
    (0 + 1 < 2 →
      ∃ a b, ([3, 4, 5, 6] : List Nat)[(0 * 2 + 0) % 256]? = some a ∧
        ([3, 4, 5, 6] : List Nat)[(0 * 2 + 0 + 1) % 256]? = some b ∧
        ([(some 3, some 4), (none, none)] : Chunk Nat)[0]? =
          some (some a, some b)) ∧
    (1 ≤ 2 → ([(some 3, some 4), (none, none)] : Chunk Nat)[2 - 1]? =
      some (none, none)) :=
  c4_adjacent_pairs [3, 4, 5, 6] 2 0 0 [(some 3, some 4), (none, none)]
    (by decide)

/-- Claim C5 names the behaviour the docstring promises (silent truncation
of the remainder), but the code cannot deliver it: with four distinct
frames and `sequence_length = 2` the generator yields one chunk and then
dies with an `AssertionError` (its asserts compare every chunk's first
slot against frames 0 and 1 of the whole input), instead of the claimed
`floor(4/2) = 2` silent chunks; and with five equal frames — so the
asserts happen to pass — it yields the two full chunks but then raises an
`IndexError` on the final short chunk instead of silently skipping it. -/
theorem c5_chunk_count_bug_demo :
    imagePairsRun [10, 20, 30, 40] 2 =
      ([[(some 10, some 20), (none, none)]], true) ∧
    imagePairsRun [7, 7, 7, 7, 7] 2 =
      ([[(some 7, some 7), (none, none)], [(some 7, some 7), (none, none)]],
        true) := by
  decide

/-- Claim C10: `image_pairs` materialises its frame-gather indices in an
unsigned 8-bit array, so the chunk built at start `idx` stacks, in each
filled slot `k`, the frames at positions `(idx + k) mod 256` and
`(idx + k + 1) mod 256` of the input; adjacent-pair selection is
therefore only faithful while every accessed index fits in 8 bits. -/
theorem c10_uint8_index_wraparound (seq : List α) (L idx k : Nat)
    (ch : Chunk α) (hch : buildChunk seq L idx = some ch) (hk : k + 1 < L) :
    ∃ a b, seq[(idx + k) % 256]? = some a ∧
      seq[(idx + k + 1) % 256]? = some b ∧
      ch[k]? = some (some a, some b) :=
  buildChunk_slot hch hk

set_option maxRecDepth 4000 in
/-- Concrete run of `c10_uint8_index_wraparound` past the 8-bit boundary:
at chunk start `idx = 256` on a 300-frame input, slot 0 stacks frames 0
and 1 — the wrapped indices — rather than frames 256 and 257. -/
theorem c10_uint8_index_wraparound_witness :
    ∃ a b, (List.range 300)[(256 + 0) % 256]? = some a ∧
      (List.range 300)[(256 + 0 + 1) % 256]? = some b ∧
      ([(some 0, some 1), (none, none)] : Chunk Nat)[0]? =
        some (some a, some b) :=
  c10_uint8_index_wraparound (List.range 300) 2 256 0
    [(some 0, some 1), (none, none)] (by decide) (by decide)


/-- Claim C8, amended: for every well-formed input array, when
`factor = 1.0` or the destination dtype admits the in-place multiply
under numpy's `same_kind` rule (in particular every floating destination
dtype), `convert_large_array` writes an output of identical shape whose
values equal `cast(source, dtype) * factor` elementwise (`factor = 1.0`
skips the multiply, which agrees with the formula since multiplying by
one is the identity of the scalar arithmetic); with the identity cast
and `factor = 1.0` the output equals the source (round trip, for either
dtype kind).  The claim's "for all factors" is false as stated: for a
destination dtype that cannot absorb the product — an integer dtype with
a float `factor != 1.0` — `np.multiply(dest, factor, out=dest)` raises
`UFuncTypeError` and no output values are produced. -/
theorem c8_convert_contract {S D F : Type} [DecidableEq F] [One F]
    (src : NpyArr S) (cast : S → D) (mul : D → F → D) (factor : F)
    (hone : ∀ d : D, mul d 1 = d) :
    convert_large_array src cast true mul factor =
      some ⟨src.shape, src.data.map (fun v => mul (cast v) factor)⟩ ∧
    (∀ (sk : Bool) (mulS : S → F → S),
      convert_large_array src (fun v => v) sk mulS (1 : F) = some src) ∧
    (factor ≠ 1 → convert_large_array src cast false mul factor = none) := by
  refine ⟨?_, ?_, ?_⟩
  · simp only [convert_large_array]
    by_cases hf : factor = 1
    · rw [if_pos hf]
      subst hf
      simp [hone]
    · rw [if_neg hf]
      simp [List.map_map]
  · intro sk mulS
    cases src with
    | mk sh da =>
      simp [convert_large_array]
  · intro hf
    simp only [convert_large_array]
    rw [if_neg hf]
    rfl

/-- Claim C8 counterexample: destination dtype `int64` (`D = Int` with
`sk = false`, since `np.result_type(int64, float) = float64` is not
`same_kind`-castable into `int64`) and the Python-float factor `2.0`:
the conversion raises `UFuncTypeError` and produces no array at all,
instead of the claimed values `cast(source) * factor`. -/
theorem c8_counterexample :
    convert_large_array (⟨[2], [3, 4]⟩ : NpyArr Int) (fun v => v)
      false (fun d f => d * f) (2 : Int) = none ∧
    convert_large_array (⟨[2], [3, 4]⟩ : NpyArr Int) (fun v => v)
      false (fun d f => d * f) (2 : Int) ≠ some ⟨[2], [6, 8]⟩ := by
  decide

/-- Concrete run of `c8_convert_contract`: a two-element array with a
float-kind destination dtype scaled by 5 keeps its shape and multiplies
each cast value; the same call on an integer destination dtype errors. -/
theorem c8_convert_contract_witness :
    convert_large_array (⟨[2], [3, 4]⟩ : NpyArr Int) (fun v => v)
      true (fun d f => d * f) (5 : Int) =
      some ⟨[2], [15, 20]⟩ ∧
    convert_large_array (⟨[2], [3, 4]⟩ : NpyArr Int) (fun v => v)
      false (fun d f => d * f) (5 : Int) = none := by
  have h := c8_convert_contract (⟨[2], [3, 4]⟩ : NpyArr Int) (fun v => v)
    (fun d f => d * f) (5 : Int) (fun d => mul_one d)
  refine ⟨?_, h.2.2 (by decide)⟩
  rw [h.1]
  decide

end DeepVO
